import Mathlib

/-!
Verification of the complex-code-spotter snippet extraction core.

Shallow embedding of the snippet-selection algorithm of the repository
(`src/snippets.rs`), metric policy (`src/metrics.rs`), non-UTF-8 fallback
decoding (`src/non_utf8.rs`) and the per-file pipeline step and run entry
point (`src/lib.rs`).

Machine integers (`usize`) are modelled as `Nat`.  The metric
values are `f64` in `rust-code-analysis` and are cast with `as usize` before
any use; the embedding works with the already-cast `Nat` values.  External
collaborators (language guessing and function-space construction, the
SHIFT_JIS decoder of `encoding_rs`, file reading) are passed in as function
parameters, exactly at the boundaries where the source calls them.
-/

namespace CCS

/-- The complexity metric kinds of `src/metrics.rs` (`enum Complexity`). -/
inductive Complexity where
  | Cyclomatic : Complexity
  | Cognitive : Complexity
deriving DecidableEq, Repr

/-- A node of the function-space tree of the analyzer (`rust_code_analysis::FuncSpace`),
restricted to the fields the repository reads: `start_line`, `end_line`, the
cyclomatic and cognitive own/max metric values (after the `as usize`
cast) and the child list `spaces`. -/
inductive FuncSpace where
  | mk (start_line end_line cyclomatic cyclomatic_max cognitive cognitive_max : Nat)
      (spaces : List FuncSpace) : FuncSpace
deriving Repr

def FuncSpace.start_line : FuncSpace → Nat
  | .mk a _ _ _ _ _ _ => a

def FuncSpace.end_line : FuncSpace → Nat
  | .mk _ a _ _ _ _ _ => a

def FuncSpace.cyclomatic : FuncSpace → Nat
  | .mk _ _ a _ _ _ _ => a

def FuncSpace.cyclomatic_max : FuncSpace → Nat
  | .mk _ _ _ a _ _ _ => a

def FuncSpace.cognitive : FuncSpace → Nat
  | .mk _ _ _ _ a _ _ => a

def FuncSpace.cognitive_max : FuncSpace → Nat
  | .mk _ _ _ _ _ a _ => a

def FuncSpace.spaces : FuncSpace → List FuncSpace
  | .mk _ _ _ _ _ _ s => s

/-- `Cyclomatic::check` of `src/metrics.rs`: `(value > threshold ||
cyclomatic_max > threshold).then_some(value)`. -/
def cyclomatic_check (space : FuncSpace) (threshold : Nat) : Option Nat :=
  let value := space.cyclomatic
  if value > threshold ∨ space.cyclomatic_max > threshold then some value else none

/-- `Cognitive::check` of `src/metrics.rs`. -/
def cognitive_check (space : FuncSpace) (threshold : Nat) : Option Nat :=
  let value := space.cognitive
  if value > threshold ∨ space.cognitive_max > threshold then some value else none

/-- `Complexity::value` of `src/metrics.rs`: dispatch to the per-kind checker. -/
def Complexity.value (c : Complexity) (space : FuncSpace) (threshold : Nat) : Option Nat :=
  match c with
  | .Cyclomatic => cyclomatic_check space threshold
  | .Cognitive => cognitive_check space threshold

/-- `Complexity::default_threshold` of `src/metrics.rs`. -/
def Complexity.default_threshold : Complexity → Nat
  | .Cyclomatic => 15
  | .Cognitive => 15

/-- The own value of a metric kind on a space: the field read by its checker. -/
def Complexity.own_value (c : Complexity) (space : FuncSpace) : Nat :=
  match c with
  | .Cyclomatic => space.cyclomatic
  | .Cognitive => space.cognitive

/-- The max value of a metric kind on a space: the `_max` field read by its checker. -/
def Complexity.max_value (c : Complexity) (space : FuncSpace) : Nat :=
  match c with
  | .Cyclomatic => space.cyclomatic_max
  | .Cognitive => space.cognitive_max

/-- The supported languages of `src/snippets.rs` (`enum Language`). -/
inductive Language where
  | Javascript | Java | Mozjs | Rust | Cpp | Python | Typescript | Tsx | Ccomment | Preproc
deriving DecidableEq, Repr

/-- `SnippetData` of `src/snippets.rs`. -/
structure SnippetData where
  complexity : Nat
  start_line : Nat
  end_line : Nat
  text : String
deriving DecidableEq, Repr

/-- The per-metric record store, `HashMap<Complexity, Vec<SnippetData>>` of
`src/snippets.rs`, modelled as a total map over the two-element key enum;
an absent key is the empty list (`entry(..).or_insert_with(Vec::new)`). -/
def SnippetMap := Complexity → List SnippetData

/-- `Snippets` of `src/snippets.rs` (path kept as a plain string). -/
structure Snippets where
  source_path : String
  language : Language
  snippets : SnippetMap

/-- `save_snippets` of `src/snippets.rs`: append one `SnippetData` to the
record list of `complexity_type`. -/
def save_snippets (complexity_type : Complexity) (complexity start_line end_line : Nat)
    (text : String) (snippets : SnippetMap) : SnippetMap :=
  fun c =>
    if c = complexity_type then
      snippets c ++ [⟨complexity, start_line, end_line, text⟩]
    else snippets c

/-- Semantics of Rust `str::lines`: split on `\n`, drop a final empty segment (so a
trailing newline yields no extra line), and strip one trailing `\r` from each
line. -/
def rustLines (s : String) : List String :=
  let parts := s.splitOn "\n"
  let parts := if parts.getLast? = some "" then parts.dropLast else parts
  parts.map (fun l => if l.endsWith "\r" then l.dropRight 1 else l)

/-- The line slice taken in `obtain_snippets` (`src/snippets.rs` lines
163-167): `source_file.lines().skip(start_line.saturating_sub(1))
.take((end_line - start_line) + 1).collect()`.  `saturating_sub` and the
checked `usize` subtraction both coincide with truncated `Nat` subtraction
on the values they are defined on; the underflow question of the second one
is treated separately via `checked_sub`. -/
def snippet_lines (source_file : String) (start_line end_line : Nat) : List String :=
  ((rustLines source_file).drop (start_line - 1)).take (end_line - start_line + 1)

/-- Rust `usize` subtraction `a - b` with its underflow check (debug-mode
panic): `none` models the panic. -/
def checked_sub (a b : Nat) : Option Nat :=
  if b ≤ a then some (a - b) else none

/-- `obtain_snippets_single_space` of `src/snippets.rs`: for each
`(complexity, threshold)` pair whose check returns a value, record one
snippet whose text is the whole `source_file` and whose bounds are the
own bounds of the space. -/
def obtain_snippets_single_space (space : FuncSpace) (source_file : String)
    (complexity_thresholds : List (Complexity × Nat)) (snippets : SnippetMap) : SnippetMap :=
  complexity_thresholds.foldl
    (fun snippets ct =>
      match ct.1.value space ct.2 with
      | some complexity_value =>
          save_snippets ct.1 complexity_value space.start_line space.end_line
            source_file snippets
      | none => snippets)
    snippets

/-- The body of the `filter_map` over `complexity_thresholds` in
`obtain_snippets` (`src/snippets.rs` lines 157-180) for one space: walk the
pairs in order; a `none` check drops the pair; a `some v` check keeps it and,
when `v > threshold`, appends a record whose text is the joined line slice of
the own range of the space.  Returns the updated store and the surviving pairs. -/
def process_thresholds (space : FuncSpace) (source_file : String) :
    List (Complexity × Nat) → SnippetMap → SnippetMap × List (Complexity × Nat)
  | [], snippets => (snippets, [])
  | (c, t) :: rest, snippets =>
    match c.value space t with
    | none => process_thresholds space source_file rest snippets
    | some complexity_value =>
      let snippets :=
        if complexity_value > t then
          save_snippets c complexity_value space.start_line space.end_line
            (String.intercalate "\n" (snippet_lines source_file space.start_line space.end_line))
            snippets
        else snippets
      let r := process_thresholds space source_file rest snippets
      (r.1, (c, t) :: r.2)

/-- `obtain_snippets` of `src/snippets.rs`: depth-first, left-to-right walk.
For each space, filter the active pairs through `process_thresholds` (which
also records qualifying snippets) and recurse into the subspaces with the
surviving pairs when any survive. -/
def obtain_snippets : List FuncSpace → String → List (Complexity × Nat) → SnippetMap → SnippetMap
  | [], _, _, snippets => snippets
  | FuncSpace.mk a b c d e f subs :: rest, source_file, complexity_thresholds, snippets =>
    let space := FuncSpace.mk a b c d e f subs
    let r := process_thresholds space source_file complexity_thresholds snippets
    let snippets2 := if r.2.isEmpty then r.1 else obtain_snippets subs source_file r.2 r.1
    obtain_snippets rest source_file complexity_thresholds snippets2

/-- `get_code_snippets` of `src/snippets.rs`: keep the `(complexity,
threshold)` pairs whose check on the root space returns a value; if none
survive return `none`; otherwise collect records — whole-file records via
`obtain_snippets_single_space` when the root has no subspaces, else the
recursive walk over the subspaces — and return them as a `Snippets`. -/
def get_code_snippets (space : FuncSpace) (language : Language) (source_path : String)
    (source_file : String) (complexities : List Complexity) (thresholds : List Nat) :
    Option Snippets :=
  let complexity_thresholds := (complexities.zip thresholds).filterMap
    (fun ct => (ct.1.value space ct.2).map (fun _ => (ct.1, ct.2)))
  if complexity_thresholds.isEmpty then
    none
  else
    let base : SnippetMap := fun _ => []
    let m :=
      if space.spaces.isEmpty then
        obtain_snippets_single_space space source_file complexity_thresholds base
      else
        obtain_snippets space.spaces source_file complexity_thresholds base
    some { source_path := source_path, language := language, snippets := m }

/-- The error enum of `src/error.rs` (`enum Error`); `IoError` models the
`Io` variant, string payloads kept where the claims mention them. -/
inductive Error where
  | WrongContent : Error
  | UnknownLanguage : Error
  | NoSpaces : Error
  | Utf8 : Error
  | NonUtf8Conversion : Error
  | FormatPath (s : String) : Error
  | Concurrent (s : String) : Error
  | Mutability (s : String) : Error
  | Thresholds : Error
  | IoError : Error
  | JsonOutput : Error
deriving DecidableEq, Repr

/-- `BUFFER_SIZE` of `src/non_utf8.rs`. -/
def BUFFER_SIZE : Nat := 4096

/-- A string of `n` NUL characters: the untouched tail of the zero-initialised
stack buffer of `src/non_utf8.rs`. -/
def nulPadding (n : Nat) : String :=
  String.mk (List.replicate n (Char.ofNat 0))

/-- `encode_to_utf8` of `src/non_utf8.rs`.  The SHIFT_JIS decoder of
`encoding_rs` is external; per the Decoder contract it is deterministic and
total (errors are replaced, never reported), so it is passed in as
`decode : List Nat → String`, the full decoding of the input bytes.  The
source decodes into a fixed 4096-byte zero-initialised buffer with
`last = true`: the decoder reports `InputEmpty` (all input consumed) exactly
when the decoded text fits the buffer, and `OutputFull` otherwise.  On
success the source returns `buffer_str.to_owned()` — the whole buffer, i.e.
the decoded text followed by the remaining NUL bytes. -/
def encode_to_utf8 (decode : List Nat → String) (buf : List Nat) : Except Error String :=
  let decoded := decode buf
  if decoded.utf8ByteSize ≤ BUFFER_SIZE then
    Except.ok (decoded ++ nulPadding (BUFFER_SIZE - decoded.utf8ByteSize))
  else
    Except.error Error.NonUtf8Conversion

/-- `extract_file_snippets` of `src/lib.rs`, the per-file pipeline step.
External calls are parameters: `readRes` is the outcome of
`read_file_with_eol` (`none` = I/O error, `some none` = `Ok(None)`,
`some (some bytes)` = content); `utf8` is `std::str::from_utf8` (`none` on
invalid UTF-8); `decode` is the SHIFT_JIS decoder used by `encode_to_utf8`;
`guess` is `guess_language`; `spacesOf` is `get_function_spaces`.  The shared
aggregate (`cfg.snippets` behind the mutex) is threaded as `agg`; the result
pairs the `Result<()>` of the step with the aggregate after the step. -/
def extract_file_snippets (readRes : Option (Option (List Nat)))
    (utf8 : List Nat → Option String) (decode : List Nat → String)
    (guess : String → Option Language) (spacesOf : String → Option FuncSpace)
    (source_path : String) (complexities : List Complexity) (thresholds : List Nat)
    (agg : List Snippets) : Except Error Unit × List Snippets :=
  match readRes with
  | none => (Except.error Error.IoError, agg)
  | some none => (Except.error Error.WrongContent, agg)
  | some (some bytes) =>
    let sourceE : Except Error String :=
      match utf8 bytes with
      | some source_file => Except.ok source_file
      | none => encode_to_utf8 decode bytes
    match sourceE with
    | Except.error e => (Except.error e, agg)
    | Except.ok source_file =>
      match guess source_file with
      | none => (Except.error Error.UnknownLanguage, agg)
      | some language =>
        match spacesOf source_file with
        | none => (Except.error Error.NoSpaces, agg)
        | some spaces =>
          match get_code_snippets spaces language source_path source_file
              complexities thresholds with
          | some snippets => (Except.ok (), agg ++ [snippets])
          | none => (Except.ok (), agg)

/-- `SnippetsProducer::run` of `src/lib.rs`.  `output_is_file` is
`output_path.is_file()`; `scan` abstracts everything between the
configuration checks and the retrieval of the aggregate
(`available_parallelism`, the `ConcurrentRunner`, `Arc::try_unwrap` and the
lock), returning the collected aggregate or an infrastructure error;
`writeRes` is the outcome of `write_format` when writing is enabled. -/
def run (output_is_file : Bool) (complexities : List Complexity) (thresholds : List Nat)
    (scan : Unit → Except Error (List Snippets)) (write : Bool)
    (writeRes : Except Error Unit) : Except Error (Option (List Snippets)) :=
  if output_is_file then
    Except.error (Error.FormatPath "Output path MUST be a directory")
  else if complexities.length ≠ thresholds.length then
    Except.error Error.Thresholds
  else
    match scan () with
    | Except.error e => Except.error e
    | Except.ok snippets_context =>
      if snippets_context.isEmpty then
        Except.ok none
      else if write then
        match writeRes with
        | Except.error e => Except.error e
        | Except.ok _ => Except.ok (some snippets_context)
      else
        Except.ok (some snippets_context)

mutual

/-- The Region invariant of the analyzer (spec, section 3): for every node
and both metric kinds, `max_value ≥ own_value`, and `max_value = own_value`
when the node has no children; it holds recursively for all children. -/
def space_inv : FuncSpace → Bool
  | .mk _ _ cy cyM cog cogM subs =>
    decide (cy ≤ cyM) && decide (cog ≤ cogM) &&
    (!subs.isEmpty || (decide (cyM = cy) && decide (cogM = cog))) &&
    space_inv_list subs

/-- The Region invariant on a list of sibling nodes. -/
def space_inv_list : List FuncSpace → Bool
  | [] => true
  | s :: rest => space_inv s && space_inv_list rest

end

/-- Concrete tree: a root whose own cyclomatic value (20) exceeds the
threshold 15 and which has one child that no metric check passes on.  The
Region invariant holds: the root max is 20 = max(20, 0), the childless child
has equal own and max values. -/
def ex_root_with_quiet_child : FuncSpace :=
  FuncSpace.mk 1 3 20 20 0 0 [FuncSpace.mk 2 2 0 0 0 0 []]

/-- Concrete tree: a childless root with cyclomatic own = max = 20. -/
def ex_leaf_root : FuncSpace :=
  FuncSpace.mk 1 2 20 20 0 0 []

/-- The record that `obtain_snippets` materialises for a space: the returned
complexity value together with the own bounds of the space and the joined
line slice of its own range. -/
def node_record (space : FuncSpace) (src : String) (v : Nat) : SnippetData :=
  ⟨v, space.start_line, space.end_line,
    String.intercalate "\n" (snippet_lines src space.start_line space.end_line)⟩

/-- The contribution of one active pair to the record list of metric `c`
when `obtain_snippets` visits `space`: a record exactly when the pair is for
`c`, its check returns a value, and the value strictly exceeds the
threshold. -/
def node_entry (space : FuncSpace) (src : String) (c : Complexity)
    (p : Complexity × Nat) : Option SnippetData :=
  if p.1 = c then
    match p.1.value space p.2 with
    | some v => if v > p.2 then some (node_record space src v) else none
    | none => none
  else none

/-- The surviving pairs computed by `process_thresholds` are exactly the
active pairs whose check on the visited space returns a value. -/
theorem pt_surviving (space : FuncSpace) (src : String) :
    ∀ (cts : List (Complexity × Nat)) (m : SnippetMap),
      (process_thresholds space src cts m).2
        = cts.filter (fun p => (p.1.value space p.2).isSome) := by
  intro cts
  induction cts with
  | nil => intro m; rfl
  | cons p rest ih =>
    intro m
    obtain ⟨c, t⟩ := p
    rw [process_thresholds]
    cases h : c.value space t with
    | none => simp [h, ih]
    | some v => by_cases hv : v > t <;> simp [h, hv, ih]

/-- The record store computed by `process_thresholds` for key `c`: the old
list with the contributions of the active pairs appended in order. -/
theorem pt_map (space : FuncSpace) (src : String) :
    ∀ (cts : List (Complexity × Nat)) (m : SnippetMap) (c : Complexity),
      (process_thresholds space src cts m).1 c
        = m c ++ cts.filterMap (node_entry space src c) := by
  intro cts
  induction cts with
  | nil => intro m c; simp [process_thresholds]
  | cons p rest ih =>
    intro m c
    obtain ⟨c', t⟩ := p
    rw [process_thresholds]
    cases h : c'.value space t with
    | none =>
      simp only [List.filterMap_cons, node_entry, h]
      by_cases hc : c' = c <;> simp [hc, ih]
    | some v =>
      by_cases hv : v > t
      · simp only [hv, if_pos, List.filterMap_cons, node_entry, h]
        by_cases hc : c' = c
        · subst hc
          simp [hv, ih, save_snippets, node_record]
        · have hcc : ¬(c = c') := fun hh => hc hh.symm
          simp [hv, hc, ih, save_snippets, hcc]
      · simp only [hv, if_neg, List.filterMap_cons, node_entry, h]
        by_cases hc : c' = c <;> simp [hv, hc, ih]

/-- Unfolding of `obtain_snippets` at a cons cell, phrased with the
`FuncSpace.spaces` projection. -/
theorem obtain_snippets_cons (space : FuncSpace) (rest : List FuncSpace) (src : String)
    (cts : List (Complexity × Nat)) (m : SnippetMap) :
    obtain_snippets (space :: rest) src cts m =
      obtain_snippets rest src cts
        (if (process_thresholds space src cts m).2.isEmpty
          then (process_thresholds space src cts m).1
          else obtain_snippets space.spaces src (process_thresholds space src cts m).2
            (process_thresholds space src cts m).1) := by
  cases space with
  | mk a b cy cyM cog cogM subs =>
    rw [obtain_snippets]
    simp only [FuncSpace.spaces]

/-- Unfolding of `obtain_snippets` at nil. -/
theorem obtain_snippets_nil (src : String) (cts : List (Complexity × Nat)) (m : SnippetMap) :
    obtain_snippets [] src cts m = m := by
  rw [obtain_snippets]

/-- When no active pair is for metric `c`, the whole recursive walk leaves
the record list of `c` unchanged. -/
theorem obtain_snippets_untouched :
    ∀ (spaces : List FuncSpace) (src : String) (cts : List (Complexity × Nat))
      (m : SnippetMap) (c : Complexity), (∀ p ∈ cts, p.1 ≠ c) →
      obtain_snippets spaces src cts m c = m c := by
  have key : ∀ (n : Nat) (spaces : List FuncSpace), sizeOf spaces ≤ n →
      ∀ (src : String) (cts : List (Complexity × Nat)) (m : SnippetMap) (c : Complexity),
        (∀ p ∈ cts, p.1 ≠ c) → obtain_snippets spaces src cts m c = m c := by
    intro n
    induction n with
    | zero =>
      intro spaces h
      cases spaces with
      | nil => intro src cts m c _; rw [obtain_snippets_nil]
      | cons a l => simp [List.cons.sizeOf_spec] at h
    | succ n ih =>
      intro spaces hsz src cts m c hne
      match spaces with
      | [] => rw [obtain_snippets_nil]
      | space :: rest =>
        have hsubs : sizeOf space.spaces ≤ n := by
          cases space with
          | mk a b cy cyM cog cogM subs =>
            simp only [List.cons.sizeOf_spec, FuncSpace.mk.sizeOf_spec] at hsz
            simp only [FuncSpace.spaces]
            omega
        have hrest : sizeOf rest ≤ n := by
          simp only [List.cons.sizeOf_spec] at hsz
          have : 1 ≤ sizeOf space := by cases space; simp; omega
          omega
        rw [obtain_snippets_cons]
        have hr1 : (process_thresholds space src cts m).1 c = m c := by
          rw [pt_map]
          have : cts.filterMap (node_entry space src c) = [] := by
            rw [List.filterMap_eq_nil_iff]
            intro p hp
            simp only [node_entry, if_neg (hne p hp)]
          simp [this]
        have hr2 : ∀ p ∈ (process_thresholds space src cts m).2, p.1 ≠ c := by
          intro p hp
          rw [pt_surviving] at hp
          exact hne p (List.mem_filter.mp hp).1
        rw [ih rest hrest]
        · split
          · exact hr1
          · rw [ih space.spaces hsubs src _ _ c hr2]
            exact hr1
        · intro p hp
          exact hne p hp
  intro spaces src cts m c hne
  exact key (sizeOf spaces) spaces (Nat.le_refl _) src cts m c hne

/-- Provenance of the records collected by the recursive walk: every record
in the store for metric `c` either was already there, or was created for
some pair `(c, t)` of the active set, with a complexity value strictly above
`t` and a text that is the joined line slice of its own recorded range. -/
theorem obtain_snippets_mem :
    ∀ (spaces : List FuncSpace) (src : String) (cts : List (Complexity × Nat))
      (m : SnippetMap) (c : Complexity) (r : SnippetData),
      r ∈ obtain_snippets spaces src cts m c →
      r ∈ m c ∨ ∃ t, (c, t) ∈ cts ∧ t < r.complexity ∧
        r.text = String.intercalate "\n" (snippet_lines src r.start_line r.end_line) := by
  have entry_case : ∀ (space : FuncSpace) (src : String) (cts : List (Complexity × Nat))
      (m : SnippetMap) (c : Complexity) (r : SnippetData),
      r ∈ (process_thresholds space src cts m).1 c →
      r ∈ m c ∨ ∃ t, (c, t) ∈ cts ∧ t < r.complexity ∧
        r.text = String.intercalate "\n" (snippet_lines src r.start_line r.end_line) := by
    intro space src cts m c r hr
    rw [pt_map, List.mem_append] at hr
    rcases hr with hr | hr
    · exact Or.inl hr
    · right
      rw [List.mem_filterMap] at hr
      obtain ⟨p, hp, hpe⟩ := hr
      unfold node_entry at hpe
      by_cases hc : p.1 = c
      · rw [if_pos hc] at hpe
        split at hpe
        next v hv =>
          split at hpe
          next hgt =>
            have hre : r = node_record space src v := by
              cases hpe; rfl
            refine ⟨p.2, ?_, ?_, ?_⟩
            · have hpc : p = (c, p.2) := by
                cases p; simp at hc ⊢; exact hc
              rw [← hpc]; exact hp
            · rw [hre]; exact hgt
            · rw [hre]; rfl
          next hgt => cases hpe
        next hv => cases hpe
      · rw [if_neg hc] at hpe; cases hpe
  have key : ∀ (n : Nat) (spaces : List FuncSpace), sizeOf spaces ≤ n →
      ∀ (src : String) (cts : List (Complexity × Nat)) (m : SnippetMap) (c : Complexity)
        (r : SnippetData),
        r ∈ obtain_snippets spaces src cts m c →
        r ∈ m c ∨ ∃ t, (c, t) ∈ cts ∧ t < r.complexity ∧
          r.text = String.intercalate "\n" (snippet_lines src r.start_line r.end_line) := by
    intro n
    induction n with
    | zero =>
      intro spaces h
      cases spaces with
      | nil => intro src cts m c r hr; rw [obtain_snippets_nil] at hr; exact Or.inl hr
      | cons a l => simp [List.cons.sizeOf_spec] at h
    | succ n ih =>
      intro spaces hsz src cts m c r hr
      match spaces with
      | [] => rw [obtain_snippets_nil] at hr; exact Or.inl hr
      | space :: rest =>
        have hsubs : sizeOf space.spaces ≤ n := by
          cases space with
          | mk a b cy cyM cog cogM subs =>
            simp only [List.cons.sizeOf_spec, FuncSpace.mk.sizeOf_spec] at hsz
            simp only [FuncSpace.spaces]
            omega
        have hrest : sizeOf rest ≤ n := by
          simp only [List.cons.sizeOf_spec] at hsz
          have : 1 ≤ sizeOf space := by cases space; simp; omega
          omega
        rw [obtain_snippets_cons] at hr
        have hsurv : ∀ p ∈ (process_thresholds space src cts m).2, p ∈ cts := by
          intro p hp
          rw [pt_surviving] at hp
          exact (List.mem_filter.mp hp).1
        rcases ih rest hrest src cts _ c r hr with hr2 | hr2
        · -- the record comes from processing `space` or its subtree
          by_cases he : (process_thresholds space src cts m).2.isEmpty
          · rw [if_pos he] at hr2
            exact entry_case space src cts m c r hr2
          · rw [if_neg he] at hr2
            rcases ih space.spaces hsubs src _ _ c r hr2 with hr3 | hr3
            · exact entry_case space src cts m c r hr3
            · obtain ⟨t, ht, hlt, htext⟩ := hr3
              exact Or.inr ⟨t, hsurv (c, t) ht, hlt, htext⟩
        · exact Or.inr hr2
  intro spaces src cts m c r hr
  exact key (sizeOf spaces) spaces (Nat.le_refl _) src cts m c r hr

/-- The single-space store: for each active pair for metric `c` whose check
returns a value, one whole-file record is appended, in pair order. -/
theorem osss_map (space : FuncSpace) (src : String) :
    ∀ (cts : List (Complexity × Nat)) (m : SnippetMap) (c : Complexity),
      obtain_snippets_single_space space src cts m c
        = m c ++ cts.filterMap (fun p =>
            if p.1 = c then
              (p.1.value space p.2).map
                (fun v => (⟨v, space.start_line, space.end_line, src⟩ : SnippetData))
            else none) := by
  intro cts
  induction cts with
  | nil => intro m c; simp [obtain_snippets_single_space]
  | cons p rest ih =>
    intro m c
    have hstep : obtain_snippets_single_space space src (p :: rest) m
        = obtain_snippets_single_space space src rest
            (match p.1.value space p.2 with
              | some v => save_snippets p.1 v space.start_line space.end_line src m
              | none => m) := by
      rfl
    rw [hstep]
    cases h : p.1.value space p.2 with
    | none =>
      simp only [h, List.filterMap_cons]
      by_cases hc : p.1 = c <;> simp [hc, h, ih]
    | some v =>
      simp only [h, List.filterMap_cons]
      by_cases hc : p.1 = c
      · subst hc
        simp [h, ih, save_snippets]
      · have hcc : ¬(c = p.1) := fun hh => hc hh.symm
        simp [hc, h, ih, save_snippets, hcc]

/-- The surviving root pairs computed by `get_code_snippets` are the zipped
pairs whose check on the root returns a value. -/
theorem root_survivors (space : FuncSpace) (cs : List Complexity) (ts : List Nat) :
    (cs.zip ts).filterMap (fun ct => (ct.1.value space ct.2).map (fun _ => (ct.1, ct.2)))
      = (cs.zip ts).filter (fun ct => (ct.1.value space ct.2).isSome) := by
  induction cs.zip ts with
  | nil => rfl
  | cons p rest ih =>
    cases h : p.1.value space p.2 with
    | none => simp [List.filterMap_cons, h, ih]
    | some v => simp [List.filterMap_cons, h, ih]

/-- Restriction of a guarded `filterMap` to the elements passing the guard. -/
theorem filterMap_guard {α β : Type} (l : List α) (q : α → Bool) (g : α → Option β) :
    l.filterMap (fun a => if q a then g a else none)
      = (l.filter q).filterMap g := by
  induction l with
  | nil => rfl
  | cons a rest ih =>
    by_cases h : q a <;> simp [List.filterMap_cons, h, ih]

/-- Length of the NUL padding string. -/
theorem nulPadding_length (n : Nat) : (nulPadding n).length = n := by
  simp [nulPadding, String.length]

/-- C5: for every region and threshold, the metric check of each kind
returns some of the own value of the region iff the own value or the max
value strictly exceeds the threshold, and none otherwise; it is a total
function by construction, and the default threshold of both kinds is 15. -/
theorem metric_check_spec (c : Complexity) (space : FuncSpace) (t : Nat) :
    (c.value space t = some (c.own_value space) ↔
      (t < c.own_value space ∨ t < c.max_value space))
    ∧ (c.value space t = none ↔ ¬(t < c.own_value space ∨ t < c.max_value space))
    ∧ Complexity.default_threshold Complexity.Cyclomatic = 15
    ∧ Complexity.default_threshold Complexity.Cognitive = 15 := by
  have h1 : ∀ (own mx : Nat),
      ((if own > t ∨ mx > t then some own else none) = some own ↔ (t < own ∨ t < mx)) := by
    intro own mx
    by_cases h : own > t ∨ mx > t <;> simp [h]
  have h2 : ∀ (own mx : Nat),
      ((if own > t ∨ mx > t then some own else none) = none ↔ ¬(t < own ∨ t < mx)) := by
    intro own mx
    by_cases h : own > t ∨ mx > t <;> simp [h]
  cases c with
  | Cyclomatic =>
    exact ⟨h1 space.cyclomatic space.cyclomatic_max, h2 space.cyclomatic space.cyclomatic_max,
      rfl, rfl⟩
  | Cognitive =>
    exact ⟨h1 space.cognitive space.cognitive_max, h2 space.cognitive space.cognitive_max,
      rfl, rfl⟩

/-- C10: under the Region invariant bounds `1 ≤ start_line ≤ end_line`, the
checked `usize` subtraction in the take count never underflows, the total
`Nat` model used by `snippet_lines` agrees with the checked computation, and
the slice is total even when `end_line` exceeds the number of lines of the
decoded text: it yields exactly the available lines. -/
theorem snippet_lines_total (src : String) (s e : Nat) (h1 : 1 ≤ s) (h2 : s ≤ e) :
    checked_sub e s = some (e - s)
    ∧ (checked_sub e s).map (fun d => ((rustLines src).drop (s - 1)).take (d + 1))
        = some (snippet_lines src s e)
    ∧ (snippet_lines src s e).length
        = min (e - s + 1) ((rustLines src).length - (s - 1)) := by
  refine ⟨?_, ?_, ?_⟩
  · simp [checked_sub, h2]
  · simp [checked_sub, h2, snippet_lines]
  · simp [snippet_lines, List.length_take, List.length_drop]

/-- Witness for C10 at `src = "a\nb"`, `start_line = 1`, `end_line = 5`:
the requested range extends past the two available lines and the slice
still evaluates, yielding the available lines. -/
theorem snippet_lines_total_witness :
    checked_sub 5 1 = some (5 - 1)
    ∧ (checked_sub 5 1).map (fun d => ((rustLines "a\nb").drop (1 - 1)).take (d + 1))
        = some (snippet_lines "a\nb" 1 5)
    ∧ (snippet_lines "a\nb" 1 5).length
        = min (5 - 1 + 1) ((rustLines "a\nb").length - (1 - 1)) :=
  snippet_lines_total "a\nb" 1 5 (by decide) (by decide)

/-- C1 amended: `get_code_snippets` returns `none` exactly when no
`(metric, threshold)` pair survives the check on the root region; when at
least one pair survives it returns a `Snippets` value even if zero snippet
records were produced, so the record lists inside it may all be empty. -/
theorem get_code_snippets_none_iff (space : FuncSpace) (lang : Language) (path src : String)
    (cs : List Complexity) (ts : List Nat) :
    get_code_snippets space lang path src cs ts = none ↔
      ∀ ct ∈ cs.zip ts, ct.1.value space ct.2 = none := by
  simp only [get_code_snippets]
  split
  next h =>
    rw [List.isEmpty_iff, List.filterMap_eq_nil_iff] at h
    have hall : ∀ ct ∈ cs.zip ts, ct.1.value space ct.2 = none := by
      intro ct hct
      have := h ct hct
      rwa [Option.map_eq_none'] at this
    exact iff_of_true rfl hall
  next h =>
    constructor
    · intro hc
      exact absurd hc (Option.some_ne_none _)
    · intro hall
      exfalso
      apply h
      rw [List.isEmpty_iff, List.filterMap_eq_nil_iff]
      intro ct hct
      rw [Option.map_eq_none']
      exact hall ct hct

/-- C1 counterexample: on a root region with a child, where the root check
passes (root own cyclomatic value 20 > 15) but no child qualifies, the
Extraction Engine produces zero snippet records yet `get_code_snippets`
returns a `Snippets` value (with all record lists empty) instead of the
`None` the claim asserts.  The input satisfies the Region invariant. -/
theorem get_code_snippets_empty_records_counterexample :
    get_code_snippets ex_root_with_quiet_child Language.Rust "file.rs" "a\nb\nc"
        [Complexity.Cyclomatic] [15] ≠ none
    ∧ (get_code_snippets ex_root_with_quiet_child Language.Rust "file.rs" "a\nb\nc"
        [Complexity.Cyclomatic] [15]).map
        (fun s => (s.snippets Complexity.Cyclomatic, s.snippets Complexity.Cognitive))
        = some ([], [])
    ∧ space_inv ex_root_with_quiet_child = true := by
  have hpt : process_thresholds (FuncSpace.mk 2 2 0 0 0 0 []) "a\nb\nc"
      [(Complexity.Cyclomatic, 15)] (fun _ => ([] : List SnippetData))
      = (fun _ => [], []) := rfl
  have hobt : obtain_snippets [FuncSpace.mk 2 2 0 0 0 0 []] "a\nb\nc"
      [(Complexity.Cyclomatic, 15)] (fun _ => ([] : List SnippetData)) = fun _ => [] := by
    rw [obtain_snippets_cons, obtain_snippets_nil, hpt]
    rfl
  have hmap : (get_code_snippets ex_root_with_quiet_child Language.Rust "file.rs" "a\nb\nc"
      [Complexity.Cyclomatic] [15]).map
      (fun s => (s.snippets Complexity.Cyclomatic, s.snippets Complexity.Cognitive))
      = some ([], []) := by
    show some (obtain_snippets [FuncSpace.mk 2 2 0 0 0 0 []] "a\nb\nc"
          [(Complexity.Cyclomatic, 15)] (fun _ => []) Complexity.Cyclomatic,
        obtain_snippets [FuncSpace.mk 2 2 0 0 0 0 []] "a\nb\nc"
          [(Complexity.Cyclomatic, 15)] (fun _ => []) Complexity.Cognitive)
      = some ([], [])
    rw [hobt]
  refine ⟨?_, hmap, ?_⟩
  · intro h
    rw [h] at hmap
    cases hmap
  · simp [ex_root_with_quiet_child, space_inv, space_inv_list]

/-- C2 amended: when the fallback transcoding consumes the entire input and
its decoded text fits the fixed 4096-byte buffer, `encode_to_utf8` returns
`Ok` of the decoded text followed by NUL padding up to the buffer size (not
the decoded text alone); it returns `NonUtf8Conversion` exactly when the
decoded text does not fit the buffer. -/
theorem encode_to_utf8_spec (decode : List Nat → String) (buf : List Nat) :
    (∀ s, encode_to_utf8 decode buf = Except.ok s →
      s = decode buf ++ nulPadding (BUFFER_SIZE - (decode buf).utf8ByteSize)
      ∧ s.length = (decode buf).length + (BUFFER_SIZE - (decode buf).utf8ByteSize))
    ∧ (encode_to_utf8 decode buf = Except.error Error.NonUtf8Conversion ↔
        BUFFER_SIZE < (decode buf).utf8ByteSize) := by
  constructor
  · intro s hs
    simp only [encode_to_utf8] at hs
    split at hs
    next h =>
      cases hs
      exact ⟨rfl, by rw [String.length_append, nulPadding_length]⟩
    next h => cases hs
  · simp only [encode_to_utf8]
    split
    next h =>
      constructor
      · intro hc; cases hc
      · intro hc; omega
    next h =>
      exact iff_of_true rfl (by omega)

/-- Witness for the amended C2 at the concrete decoder returning `"A"` on
the non-UTF-8 input `[0x82]`: the returned text is the decoded `"A"` padded
with 4095 NUL bytes. -/
theorem encode_to_utf8_spec_witness :
    ("A" ++ nulPadding (BUFFER_SIZE - 1) : String)
        = "A" ++ nulPadding (BUFFER_SIZE - ("A" : String).utf8ByteSize)
    ∧ ("A" ++ nulPadding (BUFFER_SIZE - 1)).length
        = ("A" : String).length + (BUFFER_SIZE - ("A" : String).utf8ByteSize) :=
  (encode_to_utf8_spec (fun _ => "A") [130]).1 ("A" ++ nulPadding (BUFFER_SIZE - 1)) rfl

/-- C2 counterexample: with a decoder that consumes the whole input `[0x82]`
and decodes it to `"A"`, `encode_to_utf8` returns `Ok` of a 4096-byte string
(`"A"` plus NUL padding), not exactly the decoded text. -/
theorem encode_to_utf8_padding_counterexample :
    encode_to_utf8 (fun _ => "A") [130] = Except.ok ("A" ++ nulPadding (BUFFER_SIZE - 1))
    ∧ "A" ++ nulPadding (BUFFER_SIZE - 1) ≠ "A" := by
  constructor
  · rfl
  · intro h
    have hl := congrArg String.length h
    rw [String.length_append, nulPadding_length] at hl
    simp only [BUFFER_SIZE] at hl
    omega

/-- Restriction of the node contributions to the pairs of metric `c`:
pairs of other metrics contribute nothing. -/
theorem filterMap_node_entry (space : FuncSpace) (src : String) (c : Complexity) :
    ∀ cts : List (Complexity × Nat),
      cts.filterMap (node_entry space src c)
        = (cts.filter (fun p => p.1 = c)).filterMap (node_entry space src c) := by
  intro cts
  induction cts with
  | nil => rfl
  | cons p rest ih =>
    by_cases hpc : p.1 = c
    · simp [List.filterMap_cons, List.filter_cons, hpc, ih]
    · simp [List.filterMap_cons, List.filter_cons, hpc, ih, node_entry]

/-- C3: when the recursive walk visits a region with an active set whose
only pair for metric `c` is `(c, t)`: a `none` check result removes the pair
from the surviving set and no record for `c` is produced anywhere in the
region or its subtree, while a `some v` result keeps the pair active for the
children and appends exactly one record for the region itself — with the
complexity value `v` and the joined line slice of the own range of the
region as text — iff `v` strictly exceeds `t`. -/
theorem pruning_and_recording (space : FuncSpace) (src : String)
    (cts : List (Complexity × Nat)) (m : SnippetMap) (c : Complexity) (t : Nat)
    (hone : cts.filter (fun p => p.1 = c) = [(c, t)]) :
    (c.value space t = none →
      ((c, t) ∉ (process_thresholds space src cts m).2
        ∧ obtain_snippets [space] src cts m c = m c))
    ∧ ∀ v, c.value space t = some v →
      ((c, t) ∈ (process_thresholds space src cts m).2
        ∧ (process_thresholds space src cts m).1 c
            = m c ++ (if t < v then [node_record space src v] else [])) := by
  have hmem : (c, t) ∈ cts := by
    have hm : (c, t) ∈ cts.filter (fun p => p.1 = c) := by
      rw [hone]; exact List.mem_singleton.mpr rfl
    exact (List.mem_filter.mp hm).1
  have honly : ∀ p ∈ cts, p.1 = c → p = (c, t) := by
    intro p hp hpc
    have hm : p ∈ cts.filter (fun p => p.1 = c) :=
      List.mem_filter.mpr ⟨hp, by simp [hpc]⟩
    rw [hone] at hm
    exact List.mem_singleton.mp hm
  constructor
  · intro hnone
    have hfm : cts.filterMap (node_entry space src c) = [] := by
      rw [List.filterMap_eq_nil_iff]
      intro p hp
      by_cases hpc : p.1 = c
      · rw [honly p hp hpc]
        simp [node_entry, hnone]
      · simp [node_entry, hpc]
    have hr1 : (process_thresholds space src cts m).1 c = m c := by
      rw [pt_map, hfm, List.append_nil]
    have hr2c : ∀ p ∈ (process_thresholds space src cts m).2, p.1 ≠ c := by
      intro p hp hpc
      rw [pt_surviving] at hp
      obtain ⟨hpin, hps⟩ := List.mem_filter.mp hp
      rw [honly p hpin hpc] at hps
      simp [hnone] at hps
    constructor
    · intro hmem2
      rw [pt_surviving] at hmem2
      have hps := (List.mem_filter.mp hmem2).2
      simp [hnone] at hps
    · rw [obtain_snippets_cons, obtain_snippets_nil]
      split
      · exact hr1
      · rw [obtain_snippets_untouched space.spaces src _ _ c hr2c]
        exact hr1
  · intro v hv
    constructor
    · rw [pt_surviving]
      exact List.mem_filter.mpr ⟨hmem, by simp [hv]⟩
    · rw [pt_map]
      congr 1
      rw [filterMap_node_entry, hone]
      by_cases hlt : t < v <;> simp [List.filterMap_cons, node_entry, hv, hlt]

/-- Witness for C3 at the concrete region `ex_leaf_root` and the single
active pair `(Cyclomatic, 15)`: the check returns `some 20`, the pair stays
active, and exactly one record with value 20 and the own-range slice is
appended. -/
theorem pruning_and_recording_witness :
    (Complexity.Cyclomatic, 15)
        ∈ (process_thresholds ex_leaf_root "a\nb" [(Complexity.Cyclomatic, 15)] (fun _ => [])).2
    ∧ (process_thresholds ex_leaf_root "a\nb" [(Complexity.Cyclomatic, 15)] (fun _ => [])).1
          Complexity.Cyclomatic
        = (fun _ => ([] : List SnippetData)) Complexity.Cyclomatic
            ++ (if 15 < 20 then [node_record ex_leaf_root "a\nb" 20] else []) :=
  (pruning_and_recording ex_leaf_root "a\nb" [(Complexity.Cyclomatic, 15)] (fun _ => [])
    Complexity.Cyclomatic 15 (by decide)).2 20 rfl

/-- Characterisation of the metric check result. -/
theorem value_eq_some_iff (c : Complexity) (space : FuncSpace) (t v : Nat) :
    c.value space t = some v ↔
      (v = c.own_value space ∧ (t < c.own_value space ∨ t < c.max_value space)) := by
  cases c with
  | Cyclomatic =>
    simp only [Complexity.value, cyclomatic_check, Complexity.own_value, Complexity.max_value]
    by_cases h : space.cyclomatic > t ∨ space.cyclomatic_max > t
    · simp [h, eq_comm]
    · simp [h]
  | Cognitive =>
    simp only [Complexity.value, cognitive_check, Complexity.own_value, Complexity.max_value]
    by_cases h : space.cognitive > t ∨ space.cognitive_max > t
    · simp [h, eq_comm]
    · simp [h]

/-- On a childless region the Region invariant forces equal own and max
values for both metric kinds. -/
theorem space_inv_leaf (space : FuncSpace) (hinv : space_inv space = true)
    (hleaf : space.spaces = []) (c : Complexity) :
    c.max_value space = c.own_value space := by
  cases space with
  | mk a b cy cyM cog cogM subs =>
    simp only [FuncSpace.spaces] at hleaf
    subst hleaf
    rw [space_inv] at hinv
    simp only [List.isEmpty_nil, Bool.not_true, Bool.false_or, Bool.and_eq_true,
      decide_eq_true_eq] at hinv
    cases c with
    | Cyclomatic =>
      simp only [Complexity.max_value, Complexity.own_value, FuncSpace.cyclomatic,
        FuncSpace.cyclomatic_max]
      exact hinv.1.2.1
    | Cognitive =>
      simp only [Complexity.max_value, Complexity.own_value, FuncSpace.cognitive,
        FuncSpace.cognitive_max]
      exact hinv.1.2.2

/-- C4: assuming the Region invariant, every snippet record emitted by the
Extraction Engine — including the whole-file records of the childless-root
fallback, where own and max values coincide — has a complexity value
strictly greater than the threshold of the pair that produced it. -/
theorem snippet_value_exceeds_threshold (space : FuncSpace) (lang : Language)
    (path src : String) (cs : List Complexity) (ts : List Nat)
    (hinv : space_inv space = true) (s : Snippets)
    (hs : get_code_snippets space lang path src cs ts = some s)
    (c : Complexity) (r : SnippetData) (hr : r ∈ s.snippets c) :
    ∃ t, (c, t) ∈ cs.zip ts ∧ t < r.complexity := by
  simp only [get_code_snippets] at hs
  split at hs
  next h => exact Option.noConfusion hs
  next h =>
    cases hs
    rw [root_survivors] at hr
    by_cases hleaf : space.spaces.isEmpty
    · simp only [hleaf, if_true] at hr
      rw [osss_map] at hr
      simp only [List.nil_append] at hr
      rw [List.mem_filterMap] at hr
      obtain ⟨p, hp, hpe⟩ := hr
      obtain ⟨hpz, hpv⟩ := List.mem_filter.mp hp
      by_cases hpc : p.1 = c
      · rw [if_pos hpc] at hpe
        cases hv : p.1.value space p.2 with
        | none => rw [hv] at hpe; cases hpe
        | some v =>
          rw [hv, Option.map_some'] at hpe
          have hrv : r = ⟨v, space.start_line, space.end_line, src⟩ := by
            cases hpe; rfl
          rw [value_eq_some_iff] at hv
          have hmx := space_inv_leaf space hinv (List.isEmpty_iff.mp hleaf) p.1
          have hlt : p.2 < v := by
            rcases hv.2 with hlt | hlt
            · rw [hv.1]; exact hlt
            · rw [hv.1]; rw [hmx] at hlt; exact hlt
          refine ⟨p.2, ?_, ?_⟩
          · have hpq : p = (c, p.2) := by
              cases p; simp at hpc ⊢; exact hpc
            rw [← hpq]; exact hpz
          · rw [hrv]; exact hlt
      · rw [if_neg hpc] at hpe; cases hpe
    · simp only [hleaf, if_false] at hr
      rcases obtain_snippets_mem space.spaces src _ _ c r hr with hcontra | hex
      · cases hcontra
      · obtain ⟨t, ht, hlt, _⟩ := hex
        exact ⟨t, (List.mem_filter.mp ht).1, hlt⟩

/-- Witness for C4 at the childless root `ex_leaf_root` with the pair
`(Cyclomatic, 15)`: the emitted whole-file record has value 20 > 15. -/
theorem snippet_value_exceeds_threshold_witness :
    ∃ t, (Complexity.Cyclomatic, t) ∈ [Complexity.Cyclomatic].zip [15]
      ∧ t < (⟨20, 1, 2, "a\nb"⟩ : SnippetData).complexity :=
  snippet_value_exceeds_threshold ex_leaf_root Language.Rust "p" "a\nb"
    [Complexity.Cyclomatic] [15]
    (by simp [ex_leaf_root, space_inv, space_inv_list])
    ⟨"p", Language.Rust,
      obtain_snippets_single_space ex_leaf_root "a\nb" [(Complexity.Cyclomatic, 15)]
        (fun _ => [])⟩
    rfl Complexity.Cyclomatic ⟨20, 1, 2, "a\nb"⟩ (by decide)

/-- Dropping the pairs whose check returns nothing does not change the
whole-file record list: such pairs contribute no record anyway. -/
theorem filterMap_filter_isSome (space : FuncSpace) (src : String) (c : Complexity) :
    ∀ l : List (Complexity × Nat),
      (l.filter (fun ct => (ct.1.value space ct.2).isSome)).filterMap
          (fun p => if p.1 = c then (p.1.value space p.2).map
            (fun v => (⟨v, space.start_line, space.end_line, src⟩ : SnippetData)) else none)
        = l.filterMap (fun p => if p.1 = c then (p.1.value space p.2).map
            (fun v => (⟨v, space.start_line, space.end_line, src⟩ : SnippetData)) else none) := by
  intro l
  induction l with
  | nil => rfl
  | cons p rest ih =>
    obtain ⟨pc, pt⟩ := p
    cases hv : pc.value space pt with
    | none =>
      by_cases hpc : pc = c
      · subst hpc; simp [List.filter_cons, List.filterMap_cons, hv, ih]
      · simp [List.filter_cons, List.filterMap_cons, hv, hpc, ih]
    | some v =>
      by_cases hpc : pc = c
      · subst hpc; simp [List.filter_cons, List.filterMap_cons, hv, ih]
      · simp [List.filter_cons, List.filterMap_cons, hv, hpc, ih]

/-- C6: when the root region has no children, the Extraction Engine records,
for each pair whose check on the root returns a value, exactly one snippet
whose text is the entire decoded source file, whose bounds are the own
bounds of the root, and whose complexity value is the value the check
returned; when the root does have children, every emitted record instead
carries the joined line slice of its own recorded range, so only the
childless root reports the file text verbatim. -/
theorem get_code_snippets_leaf_root (space : FuncSpace) (lang : Language)
    (path src : String) (cs : List Complexity) (ts : List Nat) (s : Snippets)
    (c : Complexity) (hs : get_code_snippets space lang path src cs ts = some s) :
    (space.spaces = [] → s.snippets c = (cs.zip ts).filterMap (fun p =>
        if p.1 = c then (p.1.value space p.2).map
          (fun v => (⟨v, space.start_line, space.end_line, src⟩ : SnippetData)) else none))
    ∧ (space.spaces ≠ [] → ∀ r ∈ s.snippets c,
        r.text = String.intercalate "\n" (snippet_lines src r.start_line r.end_line)) := by
  simp only [get_code_snippets] at hs
  split at hs
  next h => exact Option.noConfusion hs
  next h =>
    cases hs
    rw [root_survivors]
    constructor
    · intro hleaf
      have hleafb : space.spaces.isEmpty = true := by simp [hleaf]
      simp only [hleafb, if_true]
      rw [osss_map]
      simp only [List.nil_append]
      exact filterMap_filter_isSome space src c (cs.zip ts)
    · intro hleaf r hr
      cases hB : space.spaces.isEmpty with
      | true => exact absurd (List.isEmpty_iff.mp hB) hleaf
      | false =>
        simp only [hB, if_false] at hr
        rcases obtain_snippets_mem space.spaces src _ _ c r hr with hcontra | hex
        · cases hcontra
        · exact hex.choose_spec.2.2

/-- Witness for C6 at the childless root `ex_leaf_root` with the pair
`(Cyclomatic, 15)`: the single record carries the entire source file. -/
theorem get_code_snippets_leaf_root_witness :
    (ex_leaf_root.spaces = [] →
      (⟨"p", Language.Rust,
        obtain_snippets_single_space ex_leaf_root "a\nb" [(Complexity.Cyclomatic, 15)]
          (fun _ => [])⟩ : Snippets).snippets Complexity.Cyclomatic
        = ([Complexity.Cyclomatic].zip [15]).filterMap (fun p =>
            if p.1 = Complexity.Cyclomatic then
              (p.1.value ex_leaf_root p.2).map
                (fun v => (⟨v, ex_leaf_root.start_line, ex_leaf_root.end_line,
                  "a\nb"⟩ : SnippetData))
            else none))
    ∧ (ex_leaf_root.spaces ≠ [] →
        ∀ r ∈ (⟨"p", Language.Rust,
            obtain_snippets_single_space ex_leaf_root "a\nb" [(Complexity.Cyclomatic, 15)]
              (fun _ => [])⟩ : Snippets).snippets Complexity.Cyclomatic,
          r.text = String.intercalate "\n" (snippet_lines "a\nb" r.start_line r.end_line)) :=
  get_code_snippets_leaf_root ex_leaf_root Language.Rust "p" "a\nb"
    [Complexity.Cyclomatic] [15]
    ⟨"p", Language.Rust,
      obtain_snippets_single_space ex_leaf_root "a\nb" [(Complexity.Cyclomatic, 15)]
        (fun _ => [])⟩
    Complexity.Cyclomatic rfl

/-- C7: the per-file step fails with `WrongContent` when no content could be
obtained, with `NonUtf8Conversion` when both the direct UTF-8 interpretation
and the fallback transcoding fail, with `UnknownLanguage` when no language
is detected, and with `NoSpaces` when no region tree is returned; whenever
it returns an error the shared aggregate is unchanged, and the aggregate
changes only by the single push of the produced `Snippets` after a fully
successful extraction. -/
theorem extract_file_snippets_spec (readRes : Option (Option (List Nat)))
    (utf8 : List Nat → Option String) (decode : List Nat → String)
    (guess : String → Option Language) (spacesOf : String → Option FuncSpace)
    (path : String) (cs : List Complexity) (ts : List Nat) (agg : List Snippets) :
    (readRes = some none →
      extract_file_snippets readRes utf8 decode guess spacesOf path cs ts agg
        = (Except.error Error.WrongContent, agg))
    ∧ (∀ bytes, readRes = some (some bytes) → utf8 bytes = none →
        encode_to_utf8 decode bytes = Except.error Error.NonUtf8Conversion →
        extract_file_snippets readRes utf8 decode guess spacesOf path cs ts agg
          = (Except.error Error.NonUtf8Conversion, agg))
    ∧ (∀ bytes sf, readRes = some (some bytes) →
        (utf8 bytes = some sf ∨ (utf8 bytes = none ∧
          encode_to_utf8 decode bytes = Except.ok sf)) →
        guess sf = none →
        extract_file_snippets readRes utf8 decode guess spacesOf path cs ts agg
          = (Except.error Error.UnknownLanguage, agg))
    ∧ (∀ bytes sf lang, readRes = some (some bytes) →
        (utf8 bytes = some sf ∨ (utf8 bytes = none ∧
          encode_to_utf8 decode bytes = Except.ok sf)) →
        guess sf = some lang → spacesOf sf = none →
        extract_file_snippets readRes utf8 decode guess spacesOf path cs ts agg
          = (Except.error Error.NoSpaces, agg))
    ∧ (∀ e, (extract_file_snippets readRes utf8 decode guess spacesOf path cs ts agg).1
          = Except.error e →
        (extract_file_snippets readRes utf8 decode guess spacesOf path cs ts agg).2 = agg)
    ∧ ((extract_file_snippets readRes utf8 decode guess spacesOf path cs ts agg).2 ≠ agg →
        ∃ bytes sf lang space sn, readRes = some (some bytes)
          ∧ (utf8 bytes = some sf ∨ encode_to_utf8 decode bytes = Except.ok sf)
          ∧ guess sf = some lang ∧ spacesOf sf = some space
          ∧ get_code_snippets space lang path sf cs ts = some sn
          ∧ (extract_file_snippets readRes utf8 decode guess spacesOf path cs ts agg).2
              = agg ++ [sn]
          ∧ (extract_file_snippets readRes utf8 decode guess spacesOf path cs ts agg).1
              = Except.ok ()) := by
  refine ⟨?_, ?_, ?_, ?_, ?_, ?_⟩
  · intro h
    subst h
    rfl
  · intro bytes h hu he
    subst h
    simp [extract_file_snippets, hu, he]
  · intro bytes sf h hsf hg
    subst h
    rcases hsf with hsf | hsf
    · simp [extract_file_snippets, hsf, hg]
    · simp [extract_file_snippets, hsf.1, hsf.2, hg]
  · intro bytes sf lang h hsf hg hsp
    subst h
    rcases hsf with hsf | hsf
    · simp [extract_file_snippets, hsf, hg, hsp]
    · simp [extract_file_snippets, hsf.1, hsf.2, hg, hsp]
  · intro e h
    cases readRes with
    | none => rfl
    | some o =>
      cases o with
      | none => rfl
      | some bytes =>
        have hsfcase : ∀ sf : String,
            (match utf8 bytes with
              | some s => Except.ok s
              | none => encode_to_utf8 decode bytes) = Except.ok sf →
            (extract_file_snippets (some (some bytes)) utf8 decode guess spacesOf
                path cs ts agg).2 = agg ∨
            (extract_file_snippets (some (some bytes)) utf8 decode guess spacesOf
                path cs ts agg).1 ≠ Except.error e := by
          intro sf hsf
          cases hg : guess sf with
          | none => left; simp [extract_file_snippets, hsf, hg]
          | some lang =>
            cases hsp : spacesOf sf with
            | none => left; simp [extract_file_snippets, hsf, hg, hsp]
            | some space =>
              cases hgc : get_code_snippets space lang path sf cs ts with
              | none =>
                right
                simp [extract_file_snippets, hsf, hg, hsp, hgc]
              | some sn =>
                right
                simp [extract_file_snippets, hsf, hg, hsp, hgc]
        cases hsrc : (match utf8 bytes with
            | some s => Except.ok s
            | none => encode_to_utf8 decode bytes : Except Error String) with
        | error e2 => simp [extract_file_snippets, hsrc]
        | ok sf =>
          rcases hsfcase sf hsrc with hres | hres
          · exact hres
          · exact absurd h hres
  · intro hne
    cases readRes with
    | none => exact absurd rfl hne
    | some o =>
      cases o with
      | none => exact absurd rfl hne
      | some bytes =>
        cases hsrc : (match utf8 bytes with
            | some s => Except.ok s
            | none => encode_to_utf8 decode bytes : Except Error String) with
        | error e2 =>
          exfalso
          apply hne
          simp [extract_file_snippets, hsrc]
        | ok sf =>
          have hor : utf8 bytes = some sf ∨ encode_to_utf8 decode bytes = Except.ok sf := by
            cases hu : utf8 bytes with
            | some s => left; rw [hu] at hsrc; cases hsrc; rfl
            | none => right; rw [hu] at hsrc; exact hsrc
          cases hg : guess sf with
          | none =>
            exfalso
            apply hne
            simp [extract_file_snippets, hsrc, hg]
          | some lang =>
            cases hsp : spacesOf sf with
            | none =>
              exfalso
              apply hne
              simp [extract_file_snippets, hsrc, hsp, hg]
            | some space =>
              cases hgc : get_code_snippets space lang path sf cs ts with
              | none =>
                exfalso
                apply hne
                simp [extract_file_snippets, hsrc, hsp, hg, hgc]
              | some sn =>
                refine ⟨bytes, sf, lang, space, sn, rfl, hor, hg, hsp, hgc, ?_, ?_⟩
                · simp [extract_file_snippets, hsrc, hsp, hg, hgc]
                · simp [extract_file_snippets, hsrc, hsp, hg, hgc]

/-- Witness for C7: a read that yields no content fails with `WrongContent`
and leaves the (empty) aggregate unchanged. -/
theorem extract_file_snippets_spec_witness :
    extract_file_snippets (some none) (fun _ => none) (fun _ => "") (fun _ => none)
        (fun _ => none) "p" [] [] []
      = (Except.error Error.WrongContent, []) :=
  (extract_file_snippets_spec (some none) (fun _ => none) (fun _ => "") (fun _ => none)
    (fun _ => none) "p" [] [] []).1 rfl

/-- C8 amended: a file output path yields the `FormatPath` error, and a
metric/threshold count mismatch yields the `Thresholds` error when the
output path is not a file — the file check runs first, so with both faults
present `FormatPath` wins; in either case the error is produced before any
scan work, so the result does not depend on the scan at all. -/
theorem run_config_errors (output_is_file : Bool) (cs : List Complexity) (ts : List Nat)
    (scan scan2 : Unit → Except Error (List Snippets)) (w w2 : Bool)
    (wr wr2 : Except Error Unit) :
    (output_is_file = true →
      run output_is_file cs ts scan w wr
        = Except.error (Error.FormatPath "Output path MUST be a directory"))
    ∧ (output_is_file = false → cs.length ≠ ts.length →
      run output_is_file cs ts scan w wr = Except.error Error.Thresholds)
    ∧ ((output_is_file = true ∨ cs.length ≠ ts.length) →
      run output_is_file cs ts scan w wr = run output_is_file cs ts scan2 w2 wr2) := by
  refine ⟨?_, ?_, ?_⟩
  · intro h
    subst h
    rfl
  · intro h hlen
    subst h
    simp [run, hlen]
  · intro h
    rcases h with h | h
    · subst h; rfl
    · cases output_is_file with
      | true => rfl
      | false => simp [run, h]

/-- Witness for the amended C8: with a directory output path and one metric
but no thresholds, `run` returns the `Thresholds` error, independently of
the scan. -/
theorem run_config_errors_witness :
    run false [Complexity.Cyclomatic] [] (fun _ => Except.ok []) false (Except.ok ())
      = Except.error Error.Thresholds :=
  (run_config_errors false [Complexity.Cyclomatic] [] (fun _ => Except.ok [])
    (fun _ => Except.ok []) false false (Except.ok ()) (Except.ok ())).2.1 rfl (by decide)

/-- C8 counterexample: when the output path is an existing file AND the
metric and threshold counts differ, `run` returns `FormatPath`, not the
`Thresholds` error the claim asserts for every count mismatch — the file
check has precedence. -/
theorem run_thresholds_precedence_counterexample :
    [Complexity.Cyclomatic].length ≠ ([] : List Nat).length
    ∧ run true [Complexity.Cyclomatic] [] (fun _ => Except.ok []) false (Except.ok ())
        = Except.error (Error.FormatPath "Output path MUST be a directory")
    ∧ run true [Complexity.Cyclomatic] [] (fun _ => Except.ok []) false (Except.ok ())
        ≠ Except.error Error.Thresholds := by
  refine ⟨by decide, rfl, ?_⟩
  intro h
  rw [show run true [Complexity.Cyclomatic] [] (fun _ => Except.ok []) false (Except.ok ())
      = Except.error (Error.FormatPath "Output path MUST be a directory") from rfl] at h
  cases h

/-- C9: a run whose configuration checks pass and whose scan completes
without an infrastructure fault never returns an error: it returns
`Ok none` (the clean signal, distinct from an error by construction) when
the aggregate is empty, and `Ok (some aggregate)` with the non-empty
aggregate — one entry per file that contributed snippets, exactly as
collected — otherwise. -/
theorem run_clean_or_results (cs : List Complexity) (ts : List Nat)
    (scan : Unit → Except Error (List Snippets)) (agg : List Snippets)
    (w : Bool) (wr : Except Error Unit)
    (hlen : cs.length = ts.length) (hscan : scan () = Except.ok agg)
    (hw : w = false ∨ wr = Except.ok ()) :
    (agg = [] → run false cs ts scan w wr = Except.ok none)
    ∧ (agg ≠ [] → run false cs ts scan w wr = Except.ok (some agg))
    ∧ ∀ e, run false cs ts scan w wr ≠ Except.error e := by
  have hbase : ∀ r, run false cs ts scan w wr = r ↔
      (if agg.isEmpty then Except.ok none
        else if w then
          match wr with
          | Except.error e => Except.error e
          | Except.ok _ => Except.ok (some agg)
        else Except.ok (some agg)) = r := by
    intro r
    simp [run, hlen, hscan]
  refine ⟨?_, ?_, ?_⟩
  · intro h
    rw [hbase]
    simp [h]
  · intro h
    rw [hbase]
    have hemp : agg.isEmpty = false := by
      cases hB : agg.isEmpty with
      | true => exact absurd (List.isEmpty_iff.mp hB) h
      | false => rfl
    rcases hw with hw | hw
    · simp [hemp, hw]
    · cases w <;> simp [hemp, hw]
  · intro e h
    rw [hbase] at h
    rcases hw with hw | hw
    · subst hw
      by_cases hemp : agg.isEmpty <;> simp [hemp] at h
    · rw [hw] at h
      by_cases hemp : agg.isEmpty
      · simp [hemp] at h
      · cases w <;> simp [hemp] at h

/-- Witness for C9 at an empty aggregate: the run reports the clean signal
`Ok none` and is not an error. -/
theorem run_clean_or_results_witness :
    (([] : List Snippets) = [] →
      run false [Complexity.Cyclomatic] [15] (fun _ => Except.ok []) false (Except.ok ())
        = Except.ok none)
    ∧ (([] : List Snippets) ≠ [] →
      run false [Complexity.Cyclomatic] [15] (fun _ => Except.ok []) false (Except.ok ())
        = Except.ok (some []))
    ∧ ∀ e, run false [Complexity.Cyclomatic] [15] (fun _ => Except.ok []) false (Except.ok ())
        ≠ Except.error e :=
  run_clean_or_results [Complexity.Cyclomatic] [15] (fun _ => Except.ok []) [] false
    (Except.ok ()) rfl rfl (Or.inl rfl)

end CCS

